import Mathlib

/-!
Shallow embedding of the aggregation core of `gitdu.py`, a script that
reports the pack-file disk usage of a git repository broken down by
directory path or by file extension.

Conventions used throughout:
* Python `dict` objects are modelled as insertion-ordered association lists
  (`Dict α := List (String × α)`); assignment updates the first matching key
  in place and otherwise appends, which is exactly the observable behaviour
  of a Python 3.7+ `dict`.
* Python exceptions (`KeyError`, `IndexError`) and non-termination of the
  ancestor `while` loop are modelled by returning `none`.
* Sizes and counts are `Nat` (all inputs to them are decimal digit strings).
* `stderr` output produced with `print(..., file=sys.stderr)` is modelled as
  an explicit list of emitted lines.
-/

set_option autoImplicit false

namespace Gitdu

/-- Insertion-ordered association list, modelling a Python `dict` keyed by
strings. -/
abbrev Dict (α : Type) : Type := List (String × α)

/-- `d[k]` lookup returning `none` when the key is missing (Python
`dict.get`). -/
def dictGet {α : Type} (k : String) : Dict α → Option α
  | [] => none
  | (k2, v) :: d => if k2 = k then some v else dictGet k d

/-- `d[k] = f (current value or dflt)`: update the value stored at `k` in
place, or append `(k, f dflt)` when `k` is absent.  This is the shape of the
get-or-create-then-mutate pattern used throughout the script. -/
def dictUpdate {α : Type} (k : String) (f : α → α) (dflt : α) : Dict α → Dict α
  | [] => [(k, f dflt)]
  | (k2, v) :: d =>
    if k2 = k then (k2, f v) :: d else (k2, v) :: dictUpdate k f dflt d

/-- Plain assignment `d[k] = v` (Python `dict.__setitem__`). -/
def dictInsert {α : Type} (k : String) (v : α) (d : Dict α) : Dict α :=
  dictUpdate k (fun _ => v) v d

/-- `List.mapM` over `Option`, written out so that it unfolds by plain
structural recursion. -/
def mapOpt {α β : Type} (f : α → Option β) : List α → Option (List β)
  | [] => some []
  | x :: xs =>
    match f x, mapOpt f xs with
    | some y, some ys => some (y :: ys)
    | _, _ => none

/-- `List.foldlM` over `Option`, written out so that it unfolds by plain
structural recursion. -/
def foldOpt {σ α : Type} (f : σ → α → Option σ) : σ → List α → Option σ
  | s, [] => some s
  | s, x :: xs =>
    match f s x with
    | none => none
    | some s2 => foldOpt f s2 xs

/-! ## Small string utilities shared by several components -/

/-- Python `str.split("\n")` on the character list: split at every newline,
keeping empty pieces. -/
def splitLines : List Char → List (List Char)
  | [] => [[]]
  | c :: rest =>
    match splitLines rest with
    | [] => [[]]
    | l :: ls => if c = '\n' then [] :: l :: ls else (c :: l) :: ls

/-- Python `s.split("\n")` as a list of strings. -/
def split_lines (s : String) : List String :=
  (splitLines s.data).map (fun l => ⟨l⟩)

/-- Python `s.startswith(pre)`. -/
def startswith (s pre : String) : Bool :=
  decide (pre.data = s.data.take pre.data.length)

/-- Lexicographic code-point comparison of character lists (Python string
`<`, which is also how `sorted` compares its string keys). -/
def strLtData : List Char → List Char → Bool
  | [], [] => false
  | [], _ :: _ => true
  | _ :: _, [] => false
  | a :: as, b :: bs =>
    if a.toNat < b.toNat then true
    else if b.toNat < a.toNat then false
    else strLtData as bs

/-- Python string `<`. -/
def strLt (a b : String) : Bool :=
  strLtData a.data b.data

/-- Index of the last occurrence of `c`, or `-1` when absent
(Python `str.rfind` of a one-character needle). -/
def rfind (c : Char) : List Char → Int
  | [] => -1
  | x :: xs =>
    let r := rfind c xs
    if r ≥ 0 then r + 1 else if x = c then 0 else -1

/-- Decimal digit to character. -/
def digitChar : Nat → Char
  | 0 => '0' | 1 => '1' | 2 => '2' | 3 => '3' | 4 => '4'
  | 5 => '5' | 6 => '6' | 7 => '7' | 8 => '8' | _ => '9'

/-- Decimal rendering of a `Nat` (Python `str` of a non-negative int);
fuelled so that it reduces by structural recursion. -/
def natStrAux : Nat → Nat → List Char
  | 0, _ => []
  | fuel + 1, n =>
    if n < 10 then [digitChar n] else natStrAux fuel (n / 10) ++ [digitChar (n % 10)]

/-- Decimal rendering of a `Nat`. -/
def natStr (n : Nat) : String :=
  ⟨natStrAux (n + 1) n⟩

/-- Value of a string of decimal digits (Python `int(...)` on the strings
produced by the `\d+` groups of the report regex). -/
def natOfDigits (cs : List Char) : Nat :=
  cs.foldl (fun n c => n * 10 + (c.toNat - 48)) 0

/-! ## Record Parser (`Entry`, `parse_git_verify_pack`) -/

/-- One object record of the verification report (`class Entry`).
`base_entry` holds the key of the resolved delta base; in the script it is a
reference to the base `Entry` object, but it is never read after being set,
so the key carries the same information. -/
structure Entry where
  sha1 : String
  type : String
  size : Nat
  pack_size : Nat
  offset : Nat
  depth : Nat
  base_sha1 : Option String
  path : Option String
  base_entry : Option String
deriving DecidableEq

/-- `Entry.__str__`: `f"{self.sha1} {self.type} {self.size} {self.pack_size}
{self.offset}"`. -/
def entryStr (e : Entry) : String :=
  e.sha1 ++ " " ++ e.type ++ " " ++ natStr e.size ++ " " ++ natStr e.pack_size
    ++ " " ++ natStr e.offset

/-- Lower-case hexadecimal digit, the character class `[0-9a-f]`. -/
def isHexLower (c : Char) : Bool :=
  c.isDigit || ('a' ≤ c && c ≤ 'f')

/-- ASCII fragment of the regex class `\w` (the report fields matched with it
are plain ASCII words such as `blob`). -/
def isWordChar (c : Char) : Bool :=
  c.isAlphanum || c = '_'

/-- Groups captured by one successful application of the verification-report
regex `([0-9a-f]{40}) +(\w+) +(\d+) +(\d+) +(\d+)(?: +(\d+) +([0-9a-f]{40}))?`. -/
structure RawMatch where
  sha1 : String
  type : String
  size : Nat
  pack_size : Nat
  offset : Nat
  depth_base : Option (Nat × String)
deriving DecidableEq

/-- Take exactly `n` characters satisfying `p` (the regex piece `[...]{n}`). -/
def takeExact (p : Char → Bool) (n : Nat) (cs : List Char) :
    Option (List Char × List Char) :=
  let pre := cs.take n
  if pre.length = n && pre.all p then some (pre, cs.drop n) else none

/-- Take a maximal non-empty run of characters satisfying `p` (the regex
pieces `\w+` and `\d+`; every use site follows the run with a character class
disjoint from `p`, so maximal munch agrees with backtracking). -/
def takeRun (p : Char → Bool) (cs : List Char) :
    Option (List Char × List Char) :=
  let pre := cs.takeWhile p
  if pre.isEmpty then none else some (pre, cs.drop pre.length)

/-- Skip a non-empty run of spaces (the regex piece `" +"`). -/
def skipSpaces (cs : List Char) : Option (List Char) :=
  (takeRun (fun c => c = ' ') cs).map Prod.snd

/-- The optional trailing group `(?: +(\d+) +([0-9a-f]{40}))?` applied at a
position: `some` when the whole group matches, `none` when the group matches
the empty string instead. -/
def matchDeltaTail (cs : List Char) : Option (Nat × String) := do
  let r1 ← skipSpaces cs
  let (d, r2) ← takeRun Char.isDigit r1
  let r3 ← skipSpaces r2
  let (b, _) ← takeExact isHexLower 40 r3
  some (natOfDigits d, ⟨b⟩)

/-- `rexp.match(line)` for the verification-report regex: an anchored prefix
match (trailing characters after the matched prefix are ignored, exactly as
with `re.match`). -/
def matchLine (line : String) : Option RawMatch := do
  let (sha, r1) ← takeExact isHexLower 40 line.data
  let r2 ← skipSpaces r1
  let (ty, r3) ← takeRun isWordChar r2
  let r4 ← skipSpaces r3
  let (sz, r5) ← takeRun Char.isDigit r4
  let r6 ← skipSpaces r5
  let (ps, r7) ← takeRun Char.isDigit r6
  let r8 ← skipSpaces r7
  let (off, r9) ← takeRun Char.isDigit r8
  some { sha1 := ⟨sha⟩, type := ⟨ty⟩, size := natOfDigits sz,
         pack_size := natOfDigits ps, offset := natOfDigits off,
         depth_base := matchDeltaTail r9 }

/-- `Entry.__init__` applied to the regex groups: `depth` falls back to `0`
when group 6 is absent, `base_sha1` stays `None` when group 7 is absent. -/
def mkEntry (m : RawMatch) : Entry :=
  { sha1 := m.sha1, type := m.type, size := m.size, pack_size := m.pack_size,
    offset := m.offset, depth := (m.depth_base.map Prod.fst).getD 0,
    base_sha1 := m.depth_base.map Prod.snd, path := none, base_entry := none }

/-- First loop of `parse_git_verify_pack`: build the record mapping from the
matching lines, later lines overwriting earlier ones with the same
identifier. -/
def build_entries (s : String) : Dict Entry :=
  (split_lines s).foldl
    (fun d line =>
      match matchLine line with
      | some m => dictInsert m.sha1 (mkEntry m) d
      | none => d)
    []

/-- One step of the second loop of `parse_git_verify_pack`:
`if entry.base_sha1: entry.base_entry = entries[entry.base_sha1]`.
A truthy `base_sha1` whose key is missing raises `KeyError`, modelled as
`none`. -/
def resolve_base (d : Dict Entry) (e : Entry) : Option Entry :=
  match e.base_sha1 with
  | none => some e
  | some b =>
    if b = "" then some e
    else (dictGet b d).map (fun _ => { e with base_entry := some b })

/-- `parse_git_verify_pack`: build the mapping, then resolve every
`base_sha1` into a `base_entry` reference; a `KeyError` while resolving
aborts the whole call (`none`). -/
def parse_git_verify_pack (s : String) : Option (Dict Entry) :=
  let d := build_entries s
  mapOpt (fun pr => (resolve_base d pr.2).map (fun e2 => (pr.1, e2))) d

/-- Every truthy `base_sha1` of the built mapping resolves to a record of the
same batch. -/
def basesResolve (d : Dict Entry) : Bool :=
  d.all (fun pr =>
    match pr.2.base_sha1 with
    | none => true
    | some b => b = "" || (dictGet b d).isSome)

/-! ## Directory Aggregator (`DirEntry`, `make_dir_entries`) -/

/-- One synthesized path node (`class DirEntry`); `size`/`pack_size`/`updates`
are the direct totals, the `acc_` fields the subtree-inclusive totals. -/
structure DirEntry where
  path : String
  type : String
  size : Nat
  pack_size : Nat
  updates : Nat
  acc_size : Nat
  acc_pack_size : Nat
  acc_updates : Nat
deriving DecidableEq

/-- `DirEntry.__init__`: all totals start at zero. -/
def DirEntry.empty (path type : String) : DirEntry :=
  { path := path, type := type, size := 0, pack_size := 0, updates := 0,
    acc_size := 0, acc_pack_size := 0, acc_updates := 0 }

/-- `DirEntry.update_size`: fold a record into the direct and accumulated
totals. -/
def update_size (d : DirEntry) (size pack_size : Nat) : DirEntry :=
  { d with size := d.size + size, pack_size := d.pack_size + pack_size,
           updates := d.updates + 1, acc_size := d.acc_size + size,
           acc_pack_size := d.acc_pack_size + pack_size,
           acc_updates := d.acc_updates + 1 }

/-- `DirEntry.update_acc_size`: fold a record into the accumulated totals
only. -/
def update_acc_size (d : DirEntry) (size pack_size : Nat) : DirEntry :=
  { d with acc_size := d.acc_size + size,
           acc_pack_size := d.acc_pack_size + pack_size,
           acc_updates := d.acc_updates + 1 }

/-- `str.rstrip("/")` on a character list. -/
def rstripSlashes (cs : List Char) : List Char :=
  (cs.reverse.dropWhile (fun c => c = '/')).reverse

/-- `os.path.dirname` for POSIX paths (the script only ever feeds it
`/`-separated git paths): everything up to the last `/`, with trailing
slashes stripped unless the head consists of slashes only. -/
def dirname (p : String) : String :=
  let cs := p.data
  let i := (rfind '/' cs + 1).toNat
  let head := cs.take i
  if head.isEmpty || head.all (fun c => c = '/') then ⟨head⟩
  else ⟨rstripSlashes head⟩

/-- One accumulated-totals update at ancestor `q`, creating the node as a
`"tree"` when absent (the body of the ancestor `while` loop). -/
def accUpd (sz pk : Nat) (d : Dict DirEntry) (q : String) : Dict DirEntry :=
  dictUpdate q (fun de => update_acc_size de sz pk) (DirEntry.empty q "tree") d

/-- The ancestor `while` loop of `make_dir_entries`:
`while path: path = os.path.dirname(path); <get-or-create and update_acc_size>`.
The loop is fuelled by the length of the starting path; the fuel can only run
out when the loop diverges in Python (which happens exactly when some
iterated `dirname` is a non-empty string of slashes, a fixpoint of
`dirname`), and that situation is modelled as `none`. -/
def walk_ancestors (sz pk : Nat) : Nat → String → Dict DirEntry → Option (Dict DirEntry)
  | 0, path, d => if path = "" then some d else none
  | fuel + 1, path, d =>
    if path = "" then some d
    else walk_ancestors sz pk fuel (dirname path) (accUpd sz pk d (dirname path))

/-- The list of ancestors visited by `walk_ancestors`, separated from the
dictionary updates. -/
def chain : Nat → String → Option (List String)
  | 0, path => if path = "" then some [] else none
  | fuel + 1, path =>
    if path = "" then some []
    else (chain fuel (dirname path)).map (fun qs => dirname path :: qs)

/-- One iteration of the record loop of `make_dir_entries`; the state is the
list of `stderr` lines emitted so far paired with the `dir_entries`
dictionary. -/
def dir_step (ignored : List String) (st : List String × Dict DirEntry)
    (e : Entry) : Option (List String × Dict DirEntry) :=
  match e.path with
  | none => some (st.1 ++ ["Not in rev-list: " ++ entryStr e], st.2)
  | some p =>
    if e.type = "blob" || e.type = "tree" then
      if ignored.contains p then some st
      else
        let d1 := dictUpdate p (fun de => update_size de e.size e.pack_size)
          (DirEntry.empty p e.type) st.2
        match walk_ancestors e.size e.pack_size p.data.length p d1 with
        | none => none
        | some d2 => some (st.1, d2)
    else some st

/-- Stable insertion into a list sorted by the strict order `lt` (a later
element is placed after equal ones, as Python's stable `sorted`). -/
def insertSortedBy {α : Type} (lt : α → α → Bool) (e : α) : List α → List α
  | [] => [e]
  | x :: xs => if lt e x then e :: x :: xs else x :: insertSortedBy lt e xs

/-- Stable sort by the strict order `lt`, modelling Python `sorted` with the
corresponding key. -/
def sortBy {α : Type} (lt : α → α → Bool) (l : List α) : List α :=
  l.foldl (fun acc x => insertSortedBy lt x acc) []

/-- `make_dir_entries`: fold every record into the path-node dictionary and
return the nodes sorted by path (`sorted(dir_entries.values(), key=path)`),
together with the `stderr` lines emitted along the way. -/
def make_dir_entries (entries : Dict Entry) (ignored_paths : List String) :
    Option (List String × List DirEntry) :=
  match foldOpt (dir_step ignored_paths) ([], []) (entries.map Prod.snd) with
  | none => none
  | some (log, d) =>
    some (log, sortBy (fun a b => strLt a.path b.path) (d.map Prod.snd))

/-! ## Extension Aggregator (`ExtensionEntry`, `make_file_extension_entries`) -/

/-- One extension bucket (`class ExtensionEntry`); the Python `set` of
contributing paths is modelled as a duplicate-free insertion-ordered list. -/
structure ExtensionEntry where
  extension : String
  files : List String
  acc_size : Nat
  acc_pack_size : Nat
  acc_updates : Nat
deriving DecidableEq

/-- `ExtensionEntry.__init__`. -/
def ExtensionEntry.empty (extension : String) : ExtensionEntry :=
  { extension := extension, files := [], acc_size := 0, acc_pack_size := 0,
    acc_updates := 0 }

/-- `ExtensionEntry.update_size`: record the path in the set of distinct
files and add the sizes to the accumulated totals. -/
def ext_update_size (x : ExtensionEntry) (path : String) (size pack_size : Nat) :
    ExtensionEntry :=
  { x with files := if x.files.contains path then x.files else x.files ++ [path],
           acc_size := x.acc_size + size,
           acc_pack_size := x.acc_pack_size + pack_size,
           acc_updates := x.acc_updates + 1 }

/-- `os.path.splitext(p)[1]` for POSIX paths: the extension starting at the
last `.` (`dotIndex = p.rfind('.')`), provided that dot lies after the last
`/` (`sepIndex = p.rfind('/')`) and some character of the basename strictly
before it is not itself a `.`; otherwise the empty string. -/
def splitext_ext (p : String) : String :=
  if rfind '/' p.data < rfind '.' p.data then
    if ((p.data.take (rfind '.' p.data).toNat).drop
        (rfind '/' p.data + 1).toNat).any (fun c => c ≠ '.')
    then ⟨p.data.drop (rfind '.' p.data).toNat⟩
    else ""
  else ""

/-- The path-scope test of `make_file_extension_entries` (and of the
directory-mode output loop of `main`, which repeats it verbatim):
`some true` keeps the record, `some false` skips it, and `none` models the
`IndexError` that `entry.path[len(path)]` would raise when evaluated out of
bounds. -/
def scope_test (scope p : String) : Option Bool :=
  if scope = "" then some true
  else if startswith p scope = false then some false
  else if p = scope then some true
  else
    match p.data.get? scope.data.length with
    | none => none
    | some c => some (c = '/')

/-- One iteration of the record loop of `make_file_extension_entries`; the
state is the emitted `stderr` lines paired with the bucket dictionary. -/
def ext_step (scope : String) (ignored : List String)
    (st : List String × Dict ExtensionEntry) (e : Entry) :
    Option (List String × Dict ExtensionEntry) :=
  match e.path with
  | none => some (st.1 ++ ["Not in rev-list: " ++ entryStr e], st.2)
  | some p =>
    if e.type ≠ "blob" then some st
    else
      match scope_test scope p with
      | none => none
      | some false => some st
      | some true =>
        if ignored.contains p then some st
        else
          some (st.1,
            dictUpdate (splitext_ext p)
              (fun x => ext_update_size x p e.size e.pack_size)
              (ExtensionEntry.empty (splitext_ext p)) st.2)

/-- `make_file_extension_entries`: fold every blob record within the scope
into its extension bucket and return the buckets sorted ascending by
accumulated pack size. -/
def make_file_extension_entries (entries : Dict Entry) (scope : String)
    (ignored_paths : List String) :
    Option (List String × List ExtensionEntry) :=
  match foldOpt (ext_step scope ignored_paths) ([], []) (entries.map Prod.snd) with
  | none => none
  | some (log, d) =>
    some (log,
      sortBy (fun a b => decide (a.acc_pack_size < b.acc_pack_size))
        (d.map Prod.snd))

/-! ## Report Filter (threshold and output loops of `main`) -/

/-- The signed size-threshold filter of `main` (lines repeated identically in
the directory-mode and extension-mode output loops): `none` models a missing
`-t` option; `false` means the entry is dropped. -/
def threshold_keep (threshold : Option Int) (acc_pack_size : Nat) : Bool :=
  match threshold with
  | none => true
  | some t =>
    if t ≠ 0 then
      if t < 0 && decide ((acc_pack_size : Int) > -t) then false
      else if t > 0 && decide ((acc_pack_size : Int) < t) then false
      else true
    else true

/-- `entry.path.count("/")`. -/
def countSlash (p : String) : Nat :=
  (p.data.filter (fun c => c = '/')).length

/-- The directory-mode output filter of `main`: type filter, depth filter,
threshold filter, then the scope test (whose `IndexError` possibility is
again modelled by `none`). -/
def dir_output_keep (list_files : Bool) (max_depth : Int)
    (threshold : Option Int) (scope : String) (e : DirEntry) : Option Bool :=
  if !list_files && e.type ≠ "tree" then some false
  else if (countSlash e.path : Int) ≥ max_depth then some false
  else if threshold_keep threshold e.acc_pack_size = false then some false
  else scope_test scope e.path

/-- The extension-mode output filter of `main`: only the threshold applies. -/
def ext_output_keep (threshold : Option Int) (e : ExtensionEntry) : Bool :=
  threshold_keep threshold e.acc_pack_size

/-! ## Bookkeeping used to state properties of `make_dir_entries` -/

/-- A record participates in directory aggregation: its path resolved, its
kind is `blob` or `tree`, and its path is not ignored. -/
def counted (ignored : List String) (e : Entry) : Bool :=
  match e.path with
  | none => false
  | some p => (e.type = "blob" || e.type = "tree") && !(ignored.contains p)

/-- Number of occurrences of `p` in a list of path strings. -/
def cntEq (p : String) (qs : List String) : Nat :=
  (qs.filter (fun q => q = p)).length

/-- The proper-ancestor list of a path, as visited by the ancestor loop
(`none` when the loop would diverge). -/
def ancestorsOf (p : String) : Option (List String) :=
  chain p.data.length p

/-- How many times the ancestor loop run for record `e` visits path `p`. -/
def chainCount (e : Entry) (p : String) : Nat :=
  match e.path with
  | none => 0
  | some pe =>
    match ancestorsOf pe with
    | none => 0
    | some qs => cntEq p qs

/-- The participating records of `l` mapped exactly to path `p`. -/
def directFilter (ignored : List String) (p : String) (l : List Entry) : List Entry :=
  l.filter (fun e => counted ignored e && e.path = some p)

/-- Number of records folded directly into the node at `p`. -/
def directCount (l : List Entry) (ignored : List String) (p : String) : Nat :=
  (directFilter ignored p l).length

/-- Sum of `size` over the records folded directly into the node at `p`. -/
def directSizeSum (l : List Entry) (ignored : List String) (p : String) : Nat :=
  ((directFilter ignored p l).map (fun e => e.size)).sum

/-- Sum of `pack_size` over the records folded directly into the node at
`p`. -/
def directPackSum (l : List Entry) (ignored : List String) (p : String) : Nat :=
  ((directFilter ignored p l).map (fun e => e.pack_size)).sum

/-- Number of ancestor-loop visits to `p` over all participating records:
the descendant contributions folded into the accumulated update count of the
node at `p`. -/
def ancCount (l : List Entry) (ignored : List String) (p : String) : Nat :=
  ((l.filter (counted ignored)).map (fun e => chainCount e p)).sum

/-- Total `size` folded into the accumulated totals of the node at `p` by
descendant records. -/
def ancSizeSum (l : List Entry) (ignored : List String) (p : String) : Nat :=
  ((l.filter (counted ignored)).map (fun e => chainCount e p * e.size)).sum

/-- Total `pack_size` folded into the accumulated totals of the node at `p`
by descendant records. -/
def ancPackSum (l : List Entry) (ignored : List String) (p : String) : Nat :=
  ((l.filter (counted ignored)).map (fun e => chainCount e p * e.pack_size)).sum

/-- Some participating record is folded, via the ancestor loop, into the
accumulated totals of the node at `p`: the node has descendant
contributions (a record at a strictly longer path below `p`). -/
def hasDescendantContribution (entries : Dict Entry) (ignored : List String)
    (p : String) : Bool :=
  (entries.map Prod.snd).any (fun e => counted ignored e && chainCount e p ≠ 0)

/-- What the node stored at key `p` must look like after folding the records
`l`: absent exactly as long as nothing contributed, and otherwise carrying
the direct sums in the direct fields and direct-plus-descendant sums in the
accumulated fields. -/
def DirNodeSpec (l : List Entry) (ignored : List String) (p : String) :
    Option DirEntry → Prop
  | none => directCount l ignored p = 0 ∧ ancCount l ignored p = 0
  | some n =>
      n.path = p ∧
      n.updates = directCount l ignored p ∧
      n.size = directSizeSum l ignored p ∧
      n.pack_size = directPackSum l ignored p ∧
      n.acc_updates = directCount l ignored p + ancCount l ignored p ∧
      n.acc_size = directSizeSum l ignored p + ancSizeSum l ignored p ∧
      n.acc_pack_size = directPackSum l ignored p + ancPackSum l ignored p

/-- Invariant carried through the record loop of `make_dir_entries`. -/
def DirInv (l : List Entry) (ignored : List String) (d : Dict DirEntry) : Prop :=
  ((d.map Prod.fst).Nodup) ∧ ∀ p : String, DirNodeSpec l ignored p (dictGet p d)

/-- `update_acc_size` iterated `k` times. -/
def iterAcc (sz pk : Nat) : Nat → DirEntry → DirEntry
  | 0, v => v
  | k + 1, v => iterAcc sz pk k (update_acc_size v sz pk)

/-! ## The extension rule in the spec's words -/

/-- The final path-component of a path: everything after the last `/`. -/
def lastComponent (p : String) : String :=
  ⟨(p.data.reverse.takeWhile (fun c => c ≠ '/')).reverse⟩

/-- The bucket-key rule in the (amended) spec's words, kept separate from the
source-derived `splitext_ext` so that the two can be compared: the substring
of the final path-component starting at that component's last `.`, except
that the key is empty when the component has no `.` or when every character
of the component strictly before that last `.` is itself a `.`. -/
def spec_extension (p : String) : String :=
  if 0 ≤ rfind '.' (lastComponent p).data ∧
      ((lastComponent p).data.take (rfind '.' (lastComponent p).data).toNat).any
        (fun c => c ≠ '.')
  then ⟨(lastComponent p).data.drop (rfind '.' (lastComponent p).data).toNat⟩
  else ""

/-! ## Concrete inputs used by scenario theorems, counterexamples and
witnesses -/

/-- A 40-hex identifier. -/
def idA : String := "aaaaaaaaaaaaaaaaaaaaaaaaaaaaaaaaaaaaaaaa"

/-- Another 40-hex identifier. -/
def idB : String := "bbbbbbbbbbbbbbbbbbbbbbbbbbbbbbbbbbbbbbbb"

/-- Scenario A's record: a blob of raw size 10 and stored size 5 resolved to
`src/main.txt`. -/
def blobA : Entry :=
  { sha1 := idA, type := "blob", size := 10, pack_size := 5, offset := 0,
    depth := 0, base_sha1 := none, path := some "src/main.txt",
    base_entry := none }

/-- Scenario A's record mapping. -/
def scenarioA : Dict Entry := [(idA, blobA)]

/-- The `src/main.txt` node of Scenario A's output. -/
def scenarioA_leaf : DirEntry :=
  { path := "src/main.txt", type := "blob", size := 10, pack_size := 5,
    updates := 1, acc_size := 10, acc_pack_size := 5, acc_updates := 1 }

/-- The three nodes Scenario A must produce, in output order. -/
def scenarioA_nodes : List DirEntry :=
  [{ path := "", type := "tree", size := 0, pack_size := 0, updates := 0,
     acc_size := 10, acc_pack_size := 5, acc_updates := 1 },
   { path := "src", type := "tree", size := 0, pack_size := 0, updates := 0,
     acc_size := 10, acc_pack_size := 5, acc_updates := 1 },
   scenarioA_leaf]

/-- A commit record never reached by the history traversal (absent path). -/
def commitAbsent : Entry :=
  { sha1 := idA, type := "commit", size := 1, pack_size := 1, offset := 0,
    depth := 0, base_sha1 := none, path := none, base_entry := none }

/-- A blob of size 0 (stored size 7) below `src`, giving `src` a descendant
contribution that leaves its accumulated raw size equal to its direct raw
size. -/
def zeroBlob : Entry :=
  { sha1 := idA, type := "blob", size := 0, pack_size := 7, offset := 0,
    depth := 0, base_sha1 := none, path := some "src/x", base_entry := none }

/-- The `src` node produced by folding `zeroBlob`. -/
def zeroBlobSrcNode : DirEntry :=
  { path := "src", type := "tree", size := 0, pack_size := 0, updates := 0,
    acc_size := 0, acc_pack_size := 7, acc_updates := 1 }

/-- A blob whose file name is `.gitignore`. -/
def dotFileBlob : Entry :=
  { sha1 := idA, type := "blob", size := 3, pack_size := 2, offset := 0,
    depth := 0, base_sha1 := none, path := some ".gitignore",
    base_entry := none }

/-- A verification report with a single well-formed record whose delta base
does not occur in the batch. -/
def unresolvedDeltaReport : String :=
  idA ++ " blob 10 5 12 1 " ++ idB

/-- The same report with the delta base present as a second record. -/
def resolvedDeltaReport : String :=
  idA ++ " blob 10 5 12 1 " ++ idB ++ "\n" ++ idB ++ " blob 7 3 2"

/-- The mapping `parse_git_verify_pack` returns for
`resolvedDeltaReport`. -/
def resolvedDeltaEntries : Dict Entry :=
  [(idA,
    { sha1 := idA, type := "blob", size := 10, pack_size := 5, offset := 12,
      depth := 1, base_sha1 := some idB, path := none,
      base_entry := some idB }),
   (idB,
    { sha1 := idB, type := "blob", size := 7, pack_size := 3, offset := 2,
      depth := 0, base_sha1 := none, path := none, base_entry := none })]

/-! # Lemmas about the dictionary model -/

theorem dictGet_dictUpdate {α : Type} (k p : String) (f : α → α) (dflt : α)
    (d : Dict α) :
    dictGet p (dictUpdate k f dflt d) =
      if k = p then some (f ((dictGet p d).getD dflt)) else dictGet p d := by
  induction d with
  | nil => by_cases h : k = p <;> simp [dictUpdate, dictGet, h]
  | cons hd tl ih =>
    obtain ⟨k2, v⟩ := hd
    by_cases h1 : k2 = k
    · subst h1
      by_cases h2 : k2 = p
      · subst h2; simp [dictUpdate, dictGet]
      · simp [dictUpdate, dictGet, h2]
    · by_cases h2 : k2 = p
      · subst h2
        have h3 : ¬ k = k2 := fun h => h1 h.symm
        simp [dictUpdate, dictGet, h1, h3]
      · simp [dictUpdate, dictGet, h1, h2, ih]

theorem dictGet_eq_none_iff {α : Type} (k : String) (d : Dict α) :
    dictGet k d = none ↔ k ∉ d.map Prod.fst := by
  induction d with
  | nil => simp [dictGet]
  | cons hd tl ih =>
    obtain ⟨k2, v⟩ := hd
    by_cases h1 : k2 = k
    · subst h1
      simp [dictGet]
    · have hg : dictGet k ((k2, v) :: tl) = dictGet k tl := by
        simp [dictGet, h1]
      rw [hg, ih]
      simp only [List.map_cons, List.mem_cons]
      constructor
      · intro hn h2
        rcases h2 with h2 | h2
        · exact h1 h2.symm
        · exact hn h2
      · exact fun hn h2 => hn (Or.inr h2)

theorem keys_dictUpdate {α : Type} (k : String) (f : α → α) (dflt : α)
    (d : Dict α) :
    (dictUpdate k f dflt d).map Prod.fst =
      if (dictGet k d).isSome then d.map Prod.fst
      else d.map Prod.fst ++ [k] := by
  induction d with
  | nil => simp [dictUpdate, dictGet]
  | cons hd tl ih =>
    obtain ⟨k2, v⟩ := hd
    by_cases h1 : k2 = k
    · subst h1; simp [dictUpdate, dictGet]
    · by_cases h2 : (dictGet k tl).isSome = true <;>
        simp [dictUpdate, dictGet, h1, ih, h2]

theorem nodupKeys_dictUpdate {α : Type} (k : String) (f : α → α) (dflt : α)
    {d : Dict α} (h : (d.map Prod.fst).Nodup) :
    ((dictUpdate k f dflt d).map Prod.fst).Nodup := by
  rw [keys_dictUpdate]
  by_cases h2 : (dictGet k d).isSome = true
  · simpa [h2] using h
  · have hk : k ∉ d.map Prod.fst := by
      rw [← dictGet_eq_none_iff]
      exact Option.not_isSome_iff_eq_none.mp h2
    simp [h2, List.nodup_append, h, hk]

theorem dictGet_of_mem {α : Type} {d : Dict α}
    (h : (d.map Prod.fst).Nodup) {k : String} {v : α} (hm : (k, v) ∈ d) :
    dictGet k d = some v := by
  induction d with
  | nil => cases hm
  | cons hd tl ih =>
    obtain ⟨k2, v2⟩ := hd
    rcases List.mem_cons.mp hm with h1 | h1
    · injection h1 with hk hv
      subst hk
      subst hv
      simp [dictGet]
    · have hk2 : ¬ k2 = k := by
        intro he
        subst he
        have hmem : k2 ∈ tl.map Prod.fst :=
          List.mem_map.mpr ⟨(k2, v), h1, rfl⟩
        rw [List.map_cons] at h
        exact (List.nodup_cons.mp h).1 hmem
      have h2 : (tl.map Prod.fst).Nodup := (List.nodup_cons.mp h).2
      simp [dictGet, hk2, ih h2 h1]

/-! # Lemmas about `mapOpt`, `foldOpt` and the sort -/

theorem mapOpt_isSome_iff {α β : Type} (f : α → Option β) (l : List α) :
    (mapOpt f l).isSome = true ↔ ∀ a ∈ l, (f a).isSome = true := by
  induction l with
  | nil => simp [mapOpt]
  | cons x xs ih =>
    cases hx : f x with
    | none => simp [mapOpt, hx]
    | some y =>
      cases hxs : mapOpt f xs with
      | none => simp [mapOpt, hx, hxs, ← ih]
      | some ys => simp [mapOpt, hx, hxs, ← ih]

theorem mapOpt_fst (g : String × Entry → Option Entry) :
    ∀ (l : Dict Entry) (d : Dict Entry),
      mapOpt (fun pr => (g pr).map (fun e2 => (pr.1, e2))) l = some d →
      d.map Prod.fst = l.map Prod.fst := by
  intro l
  induction l with
  | nil =>
    intro d h
    simp [mapOpt] at h
    simp [← h]
  | cons x xs ih =>
    intro d h
    simp only [mapOpt] at h
    cases hx : (g x).map (fun e2 => (x.1, e2)) with
    | none => rw [hx] at h; cases h
    | some y =>
      cases hxs : mapOpt (fun pr => (g pr).map (fun e2 => (pr.1, e2))) xs with
      | none => rw [hx, hxs] at h; cases h
      | some ys =>
        rw [hx, hxs] at h
        obtain rfl : y :: ys = d := Option.some.injEq .. ▸ h
        obtain ⟨e2, he2, rfl⟩ := Option.map_eq_some.mp hx
        simp [ih ys hxs]

theorem mem_insertSortedBy {α : Type} (lt : α → α → Bool) (e a : α)
    (l : List α) :
    a ∈ insertSortedBy lt e l ↔ a = e ∨ a ∈ l := by
  induction l with
  | nil => simp [insertSortedBy]
  | cons x xs ih =>
    by_cases h : lt e x = true
    · simp [insertSortedBy, h]
    · simp [insertSortedBy, h, ih]
      tauto

theorem mem_sortBy {α : Type} (lt : α → α → Bool) (a : α) (l : List α) :
    a ∈ sortBy lt l ↔ a ∈ l := by
  suffices h : ∀ acc : List α,
      (a ∈ l.foldl (fun acc x => insertSortedBy lt x acc) acc ↔ a ∈ l ∨ a ∈ acc) by
    simpa [sortBy] using h []
  induction l with
  | nil => intro acc; simp
  | cons x xs ih =>
    intro acc
    simp only [List.foldl_cons]
    rw [ih]
    simp [mem_insertSortedBy]
    tauto

/-! # List helpers for the scope test -/

theorem data_append (a b : String) : (a ++ b).data = a.data ++ b.data := by
  cases a; cases b; rfl

theorem get?_append_self {α : Type} (xs ys : List α) :
    (xs ++ ys).get? xs.length = ys.get? 0 := by
  induction xs with
  | nil => rfl
  | cons x xs ih => simpa using ih

theorem take_append_plus {α : Type} (xs ys : List α) (n : Nat) :
    (xs ++ ys).take (xs.length + n) = xs ++ ys.take n := by
  induction xs with
  | nil => simp
  | cons x xs ih => simp [List.length_cons, Nat.succ_add, ih]

/-! # Claim C4: Scenario A -/

/-- C4 (confirmed): folding the single Scenario A record (a blob with
`rawSize 10`, `storedSize 5` at `src/main.txt`) with an empty ignored set
produces exactly the nodes `""`, `src`, `src/main.txt`, each with
accumulated stored size 5, and only `src/main.txt` carries the direct stored
size 5 (the two ancestors have direct totals 0). -/
theorem C4_scenario_A :
    make_dir_entries scenarioA [] = some ([], scenarioA_nodes) := by
  rfl

/-! # Claim C5: Scenario B -/

/-- C5 (confirmed): with `src/main.txt` ignored, the Scenario A record
mapping produces no nodes at all — neither the ignored path nor any
ancestor (including the root `""`) is ever synthesized. -/
theorem C5_scenario_B_ignored :
    make_dir_entries scenarioA ["src/main.txt"] = some ([], []) := by
  rfl

/-! # Claim C7: signed threshold -/

/-- C7 (confirmed): for a positive threshold `t` the signed threshold filter
drops exactly the entries with accumulated stored size strictly below `t`
(entries equal to `t` are kept), and for a negative `t` exactly the entries
strictly above `-t` (entries equal to `-t` are kept). -/
theorem C7_threshold_signed (t : Int) (n : Nat) :
    (0 < t → (threshold_keep (some t) n = false ↔ (n : Int) < t)) ∧
    (t < 0 → (threshold_keep (some t) n = false ↔ -t < (n : Int))) := by
  constructor
  · intro ht
    have h0 : t ≠ 0 := by omega
    have h1 : ¬ t < 0 := by omega
    by_cases h2 : (n : Int) < t <;> simp [threshold_keep, h0, h1, ht, h2]
  · intro ht
    have h0 : t ≠ 0 := by omega
    have h1 : ¬ 0 < t := by omega
    by_cases h2 : -t < (n : Int) <;> simp [threshold_keep, h0, h1, ht, h2]

/-- Witness for C7 at the spec's Scenario E values: threshold `50` drops an
entry of accumulated stored size 30, and threshold `-100` drops an entry of
accumulated stored size 150. -/
theorem C7_witness :
    threshold_keep (some 50) 30 = false ∧
    threshold_keep (some (-100)) 150 = false :=
  ⟨((C7_threshold_signed 50 30).1 (by decide)).mpr (by decide),
   ((C7_threshold_signed (-100) 150).2 (by decide)).mpr (by decide)⟩

/-! # Claim C10: threshold 0 disables the filter -/

/-- C10 (confirmed): a missing threshold or a threshold of exactly `0`
disables the size filter: no entry is dropped by the threshold step, in
directory mode (`threshold_keep` is the threshold step of its output loop)
or in extension mode (`ext_output_keep`). -/
theorem C10_zero_threshold_disabled (n : Nat) (e : ExtensionEntry) :
    threshold_keep none n = true ∧ threshold_keep (some 0) n = true ∧
    ext_output_keep none e = true ∧ ext_output_keep (some 0) e = true := by
  refine ⟨rfl, by simp [threshold_keep], rfl, by simp [ext_output_keep, threshold_keep]⟩

/-! # Counterexamples to C1, C2, C3, C6 as stated -/

/-- Counterexample to C1 as stated: `unresolvedDeltaReport` contains exactly
one well-formed record, whose `baseIdentifier` does not occur in the batch;
instead of returning the one-record mapping, `parse_git_verify_pack` aborts
(the `KeyError` of `entries[entry.base_sha1]`, modelled as `none`). -/
theorem C1_counterexample :
    parse_git_verify_pack unresolvedDeltaReport = none ∧
    (build_entries unresolvedDeltaReport).map Prod.fst = [idA] :=
  ⟨rfl, rfl⟩

/-- Counterexample to C2 as stated: a blob at path `.gitignore` is folded
into the bucket keyed `""`, not `.gitignore` (the substring from the last
`.` of the final component). -/
theorem C2_counterexample :
    make_file_extension_entries [(idA, dotFileBlob)] "" [] =
      some ([], [{ extension := "", files := [".gitignore"], acc_size := 3,
                   acc_pack_size := 2, acc_updates := 1 }]) ∧
    ("" : String) ≠ ".gitignore" :=
  ⟨rfl, by decide⟩

/-- Counterexample to C3 as stated: a `commit` record with an absent path
does receive the one informational line (the absent-path check runs before
the kind check), where the claim says it is skipped without a line. -/
theorem C3_counterexample :
    make_dir_entries [(idA, commitAbsent)] [] =
      some (["Not in rev-list: " ++ entryStr commitAbsent], []) ∧
    commitAbsent.type = "commit" ∧ commitAbsent.path = none :=
  ⟨rfl, rfl, rfl⟩

/-- Counterexample to C6 as stated: after folding a blob of raw size 0 at
`src/x`, the node `src` has `accumulatedSize = directSize` (both 0) even
though it does have a descendant contribution, so `accumulatedSize =
directSize` does not imply the absence of descendants. -/
theorem C6_counterexample :
    make_dir_entries [(idA, zeroBlob)] [] =
      some ([], [{ path := "", type := "tree", size := 0, pack_size := 0,
                   updates := 0, acc_size := 0, acc_pack_size := 7,
                   acc_updates := 1 },
                 zeroBlobSrcNode,
                 { path := "src/x", type := "blob", size := 0, pack_size := 7,
                   updates := 1, acc_size := 0, acc_pack_size := 7,
                   acc_updates := 1 }]) ∧
    zeroBlobSrcNode.acc_size = zeroBlobSrcNode.size ∧
    hasDescendantContribution [(idA, zeroBlob)] [] zeroBlobSrcNode.path = true :=
  ⟨rfl, rfl, rfl⟩

/-! # Claim C8: the scope test -/

theorem startswith_self (p : String) : startswith p p = true := by
  simp [startswith]

theorem startswith_data {s pre : String} (h : startswith s pre = true) :
    pre.data = s.data.take pre.data.length :=
  of_decide_eq_true h

/-- C8 (confirmed): the scope test of the Extension Aggregator never raises
(the character access at index `len(prefix)` is in bounds whenever it is
evaluated), and it admits a path exactly when the prefix is empty, the path
equals the prefix, or the path starts with the prefix followed by `/`. -/
theorem C8_scope_test_total_exact (scope p : String) :
    (scope_test scope p).isSome = true ∧
    (scope_test scope p = some true ↔
      (scope = "" ∨ p = scope ∨ startswith p (scope ++ "/") = true)) := by
  by_cases h0 : scope = ""
  · subst h0
    simp [scope_test]
  · by_cases h1 : startswith p scope = true
    · have hpre := startswith_data h1
      have hsplit : p.data = scope.data ++ p.data.drop scope.data.length := by
        conv_lhs => rw [← List.take_append_drop scope.data.length p.data]
        rw [← hpre]
      by_cases h2 : p = scope
      · subst h2
        simp [scope_test, h0, startswith_self]
      · have hne : p.data.drop scope.data.length ≠ [] := by
          intro hnil
          apply h2
          apply String.ext
          rw [hsplit, hnil, List.append_nil]
        obtain ⟨c, rest2, hc⟩ := List.exists_cons_of_ne_nil hne
        have hget : p.data.get? scope.data.length = some c := by
          conv_lhs => rw [hsplit]
          rw [get?_append_self, hc]
          rfl
        have htake : p.data.take (scope.data.length + 1) = scope.data ++ [c] := by
          conv_lhs => rw [hsplit, hc]
          rw [take_append_plus]
          rfl
        have hsw : startswith p (scope ++ "/") = true ↔ c = '/' := by
          unfold startswith
          rw [data_append]
          have hlen : (scope.data ++ ("/" : String).data).length
              = scope.data.length + 1 := by
            simp
          rw [hlen, htake]
          constructor
          · intro hx
            have h3 : scope.data ++ ('/' :: []) = scope.data ++ [c] :=
              of_decide_eq_true hx
            have h4 := List.append_cancel_left h3
            injection h4 with h5 _
            exact h5.symm
          · intro h5
            subst h5
            exact decide_eq_true rfl
        have hst : scope_test scope p = some (decide (c = '/')) := by
          unfold scope_test
          rw [if_neg h0, if_neg (by simp [h1]), if_neg h2, hget]
        rw [hst]
        constructor
        · rfl
        · simp only [Option.some.injEq, decide_eq_true_eq]
          constructor
          · intro h5
            exact Or.inr (Or.inr (hsw.mpr h5))
          · intro h5
            rcases h5 with h5 | h5 | h5
            · exact absurd h5 h0
            · exact absurd h5 h2
            · exact hsw.mp h5
    · have h1f : startswith p scope = false := by
        simpa using h1
      have hst : scope_test scope p = some false := by
        simp [scope_test, h0, h1f]
      rw [hst]
      refine ⟨rfl, ?_⟩
      constructor
      · intro h5
        cases h5
      · intro h5
        rcases h5 with h5 | h5 | h5
        · exact absurd h5 h0
        · subst h5
          exact absurd (startswith_self p) (by simp [h1f])
        · exfalso
          apply h1
          have h6 := startswith_data h5
          rw [data_append] at h6
          have hlen : (scope.data ++ ("/" : String).data).length
              = scope.data.length + 1 := by
            simp
          rw [hlen] at h6
          have h7 : p.data.take scope.data.length = scope.data := by
            have h8 : p.data.take scope.data.length
                = (p.data.take (scope.data.length + 1)).take scope.data.length := by
              rw [List.take_take]
              congr 1
              omega
            rw [h8, ← h6]
            exact List.take_left scope.data ("/" : String).data
          exact decide_eq_true h7.symm

/-! # Claim C1 (amended): when parsing succeeds -/

theorem map_isSome {α β : Type} (f : α → β) (o : Option α) :
    (o.map f).isSome = o.isSome := by
  cases o <;> rfl

theorem resolve_base_isSome (d : Dict Entry) (e : Entry) :
    (resolve_base d e).isSome =
      (match e.base_sha1 with
       | none => true
       | some b => b = "" || (dictGet b d).isSome) := by
  cases hb : e.base_sha1 with
  | none => simp [resolve_base, hb]
  | some b =>
    by_cases hb2 : b = ""
    · simp [resolve_base, hb, hb2]
    · simp [resolve_base, hb, hb2, map_isSome]

/-- C1 (corrected): resolving delta bases is not failure-proof.
`parse_git_verify_pack` succeeds exactly when every truthy `baseIdentifier`
of the built mapping resolves to a record of the same batch (an unresolved
one raises `KeyError`, modelled as `none`); on success the returned mapping
indexes exactly the well-formed records, identifier for identifier. -/
theorem C1_amended_parse (s : String) :
    ((parse_git_verify_pack s).isSome = true ↔
      basesResolve (build_entries s) = true) ∧
    (∀ d, parse_git_verify_pack s = some d →
      d.map Prod.fst = (build_entries s).map Prod.fst) := by
  have hdef : parse_git_verify_pack s =
      mapOpt (fun pr => (resolve_base (build_entries s) pr.2).map
        (fun e2 => (pr.1, e2))) (build_entries s) := rfl
  constructor
  · rw [hdef, mapOpt_isSome_iff, basesResolve, List.all_eq_true]
    constructor
    · intro h pr hpr
      have h2 := h pr hpr
      rw [map_isSome, resolve_base_isSome] at h2
      exact h2
    · intro h pr hpr
      rw [map_isSome, resolve_base_isSome]
      exact h pr hpr
  · intro d h
    rw [hdef] at h
    exact mapOpt_fst (fun pr => resolve_base (build_entries s) pr.2)
      (build_entries s) d h

/-- Witness for C1 (amended), applied to `resolvedDeltaReport`: its bases
resolve and parsing returns a mapping with exactly the two well-formed
records' identifiers. -/
theorem C1_witness :
    resolvedDeltaEntries.map Prod.fst
      = (build_entries resolvedDeltaReport).map Prod.fst :=
  (C1_amended_parse resolvedDeltaReport).2 resolvedDeltaEntries (by rfl)

/-! # Claim C9: later lines overwrite earlier ones -/

theorem getLast?_cons_getD {α : Type} (a : α) (l : List α) :
    (a :: l).getLast? = some (l.getLast?.getD a) := by
  induction l generalizing a with
  | nil => rfl
  | cons b t ih =>
    rw [List.getLast?_cons_cons, ih b]
    rfl

theorem build_fold (k : String) :
    ∀ (lines : List String) (d0 : Dict Entry),
      dictGet k (lines.foldl (fun d line =>
        match matchLine line with
        | some m => dictInsert m.sha1 (mkEntry m) d
        | none => d) d0) =
      match ((lines.filterMap matchLine).filter (fun m => m.sha1 = k)).getLast? with
      | some m => some (mkEntry m)
      | none => dictGet k d0 := by
  intro lines
  induction lines with
  | nil => intro d0; rfl
  | cons line rest ih =>
    intro d0
    cases hm : matchLine line with
    | none => simp only [List.foldl_cons, List.filterMap_cons, hm, ih]
    | some m =>
      simp only [List.foldl_cons, List.filterMap_cons, hm, ih]
      by_cases hk : m.sha1 = k
      · rw [List.filter_cons_of_pos (by simpa using hk), getLast?_cons_getD]
        cases hlast : ((rest.filterMap matchLine).filter
            (fun m2 => m2.sha1 = k)).getLast? with
        | some m2 => simp [hlast]
        | none =>
          simp only [hlast, Option.getD_none]
          simp only [dictInsert]
          rw [dictGet_dictUpdate, if_pos hk]
      · rw [List.filter_cons_of_neg (by simpa using hk)]
        cases hlast : ((rest.filterMap matchLine).filter
            (fun m2 => m2.sha1 = k)).getLast? with
        | some m2 => simp [hlast]
        | none =>
          simp only [hlast, dictInsert]
          rw [dictGet_dictUpdate, if_neg hk]

theorem build_nodup :
    ∀ (lines : List String) (d0 : Dict Entry),
      (d0.map Prod.fst).Nodup →
      ((lines.foldl (fun d line =>
        match matchLine line with
        | some m => dictInsert m.sha1 (mkEntry m) d
        | none => d) d0).map Prod.fst).Nodup := by
  intro lines
  induction lines with
  | nil => intro d0 h; exact h
  | cons line rest ih =>
    intro d0 h
    simp only [List.foldl_cons]
    cases hm : matchLine line with
    | none => exact ih d0 h
    | some m => exact ih _ (nodupKeys_dictUpdate _ _ _ h)

/-- C9 (confirmed): the built mapping indexes exactly one record per
identifier, and the record stored under an identifier is built from the last
well-formed line of the report carrying that identifier. -/
theorem C9_last_line_wins (s k : String) :
    ((build_entries s).map Prod.fst).Nodup ∧
    dictGet k (build_entries s) =
      (((split_lines s).filterMap matchLine).filter
        (fun m => m.sha1 = k)).getLast?.map mkEntry := by
  constructor
  · exact build_nodup (split_lines s) [] (by simp)
  · have h := build_fold k (split_lines s) []
    rw [build_entries]
    rw [h]
    cases ((split_lines s).filterMap matchLine).filter
        (fun m => m.sha1 = k) |>.getLast? with
    | some m => rfl
    | none => rfl

/-! # Lemmas about `rfind` and `lastComponent` -/

theorem rfind_cons (c x : Char) (xs : List Char) :
    rfind c (x :: xs) =
      if 0 ≤ rfind c xs then rfind c xs + 1
      else if x = c then 0 else -1 := rfl

theorem rfind_nonneg_iff (c : Char) (l : List Char) :
    0 ≤ rfind c l ↔ c ∈ l := by
  induction l with
  | nil => simp [rfind]
  | cons x xs ih =>
    rw [rfind_cons]
    by_cases h : 0 ≤ rfind c xs
    · have hx : c ∈ xs := ih.mp h
      rw [if_pos h]
      simp [hx]
      omega
    · rw [if_neg h]
      by_cases hx : x = c
      · subst hx
        simp
      · rw [if_neg hx]
        have hcx : ¬ c = x := fun hc => hx hc.symm
        have hnx : c ∉ xs := fun hc => h (ih.mpr hc)
        simp [hcx, hnx]

theorem rfind_ge_neg_one (c : Char) (l : List Char) : -1 ≤ rfind c l := by
  induction l with
  | nil => simp [rfind]
  | cons x xs ih =>
    rw [rfind_cons]
    by_cases h : 0 ≤ rfind c xs
    · rw [if_pos h]; omega
    · rw [if_neg h]
      by_cases hx : x = c <;> simp [hx]

theorem rfind_lt_length (c : Char) (l : List Char) :
    rfind c l < (l.length : Int) := by
  induction l with
  | nil => simp [rfind]
  | cons x xs ih =>
    rw [rfind_cons]
    simp only [List.length_cons]
    push_cast
    by_cases h : 0 ≤ rfind c xs
    · rw [if_pos h]; omega
    · rw [if_neg h]
      by_cases hx : x = c
      · rw [if_pos hx]
        have := rfind_ge_neg_one c xs
        omega
      · rw [if_neg hx]
        omega

theorem rfind_append (c : Char) (xs ys : List Char) :
    rfind c (xs ++ ys) =
      if c ∈ ys then (xs.length : Int) + rfind c ys else rfind c xs := by
  induction xs with
  | nil =>
    by_cases h : c ∈ ys
    · simp [h]
    · simp only [List.nil_append, if_neg h]
      have h1 : ¬ 0 ≤ rfind c ys := fun hh => h ((rfind_nonneg_iff c ys).mp hh)
      have h2 := rfind_ge_neg_one c ys
      have h3 : rfind c ys = -1 := by omega
      rw [h3]
      rfl
  | cons x xs ih =>
    by_cases h : c ∈ ys
    · have hy := (rfind_nonneg_iff c ys).mpr h
      have h1 : 0 ≤ (xs.length : Int) + rfind c ys := by omega
      rw [List.cons_append, rfind_cons, ih, if_pos h, if_pos h, if_pos h1]
      simp only [List.length_cons]
      push_cast
      ring
    · rw [List.cons_append, rfind_cons, ih, if_neg h, if_neg h, rfind_cons]

theorem rfind_drop (c : Char) (l : List Char) (h : 0 ≤ rfind c l) :
    l.drop (rfind c l).toNat = c :: l.drop ((rfind c l).toNat + 1) ∧
    c ∉ l.drop ((rfind c l).toNat + 1) := by
  induction l with
  | nil => simp [rfind] at h
  | cons x xs ih =>
    by_cases h2 : 0 ≤ rfind c xs
    · have ih2 := ih h2
      rw [rfind_cons, if_pos h2]
      have ht : (rfind c xs + 1).toNat = (rfind c xs).toNat + 1 := by omega
      rw [ht]
      simpa only [List.drop_succ_cons] using ih2
    · by_cases hx : x = c
      · rw [rfind_cons, if_neg h2, if_pos hx]
        have hnx : c ∉ xs := fun hc => h2 ((rfind_nonneg_iff c xs).mpr hc)
        simp [hx, hnx]
      · rw [rfind_cons, if_neg h2, if_neg hx] at h
        exact absurd h (by decide)

theorem takeWhile_append_of_all {q : Char → Bool} (u v : List Char)
    (h : ∀ x ∈ u, q x = true) :
    (u ++ v).takeWhile q = u ++ v.takeWhile q := by
  induction u with
  | nil => rfl
  | cons x xs ih =>
    have hx : q x = true := h x (by simp)
    simp only [List.cons_append, List.takeWhile_cons, hx, if_true]
    rw [ih (fun y hy => h y (by simp [hy]))]

theorem takeWhile_eq_self_of_all {q : Char → Bool} (u : List Char)
    (h : ∀ x ∈ u, q x = true) : u.takeWhile q = u := by
  have h2 := takeWhile_append_of_all u [] h
  simpa using h2

theorem lastComponent_of_no_slash (p : String) (h : '/' ∉ p.data) :
    (lastComponent p).data = p.data := by
  show (p.data.reverse.takeWhile (fun c => decide (c ≠ '/'))).reverse = p.data
  rw [takeWhile_eq_self_of_all, List.reverse_reverse]
  intro x hx
  have hm : x ∈ p.data := List.mem_reverse.mp hx
  simp only [decide_eq_true_eq]
  exact fun he => h (he ▸ hm)

theorem lastComponent_decomp (a b : List Char) (hb : '/' ∉ b) (p : String)
    (hp : p.data = a ++ '/' :: b) : (lastComponent p).data = b := by
  show (p.data.reverse.takeWhile (fun c => decide (c ≠ '/'))).reverse = b
  rw [hp, List.reverse_append, List.reverse_cons, List.append_assoc]
  rw [takeWhile_append_of_all]
  · have hslash : (fun c => decide (c ≠ '/')) '/' = false := by simp
    simp only [List.cons_append, List.takeWhile_cons, hslash]
    simp
  · intro x hx
    have hm : x ∈ b := List.mem_reverse.mp hx
    simp only [decide_eq_true_eq]
    exact fun he => hb (he ▸ hm)

theorem drop_append_plus {α : Type} (xs ys : List α) (n : Nat) :
    (xs ++ ys).drop (xs.length + n) = ys.drop n := by
  induction xs with
  | nil => simp
  | cons x xs ih => simp [List.length_cons, Nat.succ_add, ih]

/-! # Claim C2 (amended): the extension key rule -/

/-- C2 (corrected): for every path, the bucket key the Extension Aggregator
folds a record into (`os.path.splitext(path)[1]`, the key used by
`make_file_extension_entries`) equals the amended rule: the substring of the
final path-component starting at its last `.`, except that the key is empty
when the component has no `.` or when every character of the component
strictly before that last `.` is itself a `.`. -/
theorem C2_amended_extension_rule (p : String) :
    splitext_ext p = spec_extension p := by
  by_cases hs : '/' ∈ p.data
  · -- the path has a separator: split it at the last slash
    have hsep0 : 0 ≤ rfind '/' p.data := (rfind_nonneg_iff _ _).mpr hs
    obtain ⟨hdrop, hnb⟩ := rfind_drop '/' p.data hsep0
    set i := (rfind '/' p.data).toNat with hidef
    set b := p.data.drop (i + 1) with hbdef
    set a := p.data.take i with hadef
    have hsplit : p.data = a ++ '/' :: b := by
      conv_lhs => rw [← List.take_append_drop i p.data]
      rw [hdrop]
    have hcomp := lastComponent_decomp a b hnb p hsplit
    have hlen : a.length = i := by
      rw [hadef, List.length_take]
      have hl := rfind_lt_length '/' p.data
      omega
    have hra : rfind '/' p.data = (i : Int) := by omega
    have hassoc : a ++ '/' :: b = (a ++ ['/']) ++ b :=
      (List.append_assoc a ['/'] b).symm
    have hlen2 : (a ++ ['/']).length = i + 1 := by simp [hlen]
    have hdot : rfind '.' p.data =
        if '.' ∈ ('/' :: b) then ((a.length : Int)) + rfind '.' ('/' :: b)
        else rfind '.' a := by
      conv_lhs => rw [hsplit]
      exact rfind_append '.' a ('/' :: b)
    by_cases hdb : '.' ∈ b
    · -- a dot occurs after the last slash
      have hj0 : 0 ≤ rfind '.' b := (rfind_nonneg_iff _ _).mpr hdb
      set j := (rfind '.' b).toNat with hjdef
      have hjeq : rfind '.' b = (j : Int) := by omega
      have hdot2 : rfind '.' p.data = ((i + 1 + j : Nat) : Int) := by
        rw [hdot, if_pos (by simp [hdb]), rfind_cons, if_pos hj0, hlen, hjeq]
        push_cast
        ring
      have htake : p.data.take (i + 1 + j) = (a ++ ['/']) ++ b.take j := by
        conv_lhs => rw [hsplit, hassoc]
        rw [show i + 1 + j = (a ++ ['/']).length + j from by rw [hlen2]]
        exact take_append_plus _ _ _
      have hdropb : p.data.drop (i + 1 + j) = b.drop j := by
        conv_lhs => rw [hsplit, hassoc]
        rw [show i + 1 + j = (a ++ ['/']).length + j from by rw [hlen2]]
        exact drop_append_plus _ _ _
      have hbase : (p.data.take (i + 1 + j)).drop (i + 1) = b.take j := by
        rw [htake, show i + 1 = (a ++ ['/']).length from hlen2.symm]
        exact List.drop_left _ _
      unfold splitext_ext spec_extension
      rw [hcomp, hra, hdot2]
      rw [if_pos (by push_cast; omega)]
      rw [show (((i + 1 + j : Nat) : Int)).toNat = i + 1 + j from by omega]
      rw [show (((i : Nat) : Int) + 1).toNat = i + 1 from by omega]
      rw [hbase, hjdef, hdropb]
      by_cases ha2 : (b.take (rfind '.' b).toNat).any (fun c => c ≠ '.') = true
      · rw [if_pos ha2, if_pos ⟨hj0, ha2⟩]
      · rw [if_neg ha2, if_neg (fun hc => ha2 hc.2)]
    · -- no dot after the last slash
      have hjn1 : ¬ 0 ≤ rfind '.' b :=
        fun hh => hdb ((rfind_nonneg_iff _ _).mp hh)
      have hjn2 := rfind_ge_neg_one '.' b
      have hdot2 : rfind '.' p.data = rfind '.' a := by
        rw [hdot, if_neg (by simp [hdb])]
      have hda : rfind '.' a < (i : Int) := by
        have hl := rfind_lt_length '.' a
        rw [hlen] at hl
        omega
      unfold splitext_ext spec_extension
      rw [hcomp, hra, hdot2]
      rw [if_neg (by omega), if_neg (fun hc => hjn1 hc.1)]
  · -- no separator: the component is the whole path
    have h1 : ¬ 0 ≤ rfind '/' p.data :=
      fun hh => hs ((rfind_nonneg_iff _ _).mp hh)
    have h2 := rfind_ge_neg_one '/' p.data
    have hsep : rfind '/' p.data = -1 := by omega
    have hcomp := lastComponent_of_no_slash p hs
    unfold splitext_ext spec_extension
    rw [hcomp, hsep]
    by_cases hd : 0 ≤ rfind '.' p.data
    · rw [if_pos (by omega)]
      rw [show ((-1 : Int) + 1).toNat = 0 from rfl, List.drop_zero]
      by_cases ha2 : (p.data.take (rfind '.' p.data).toNat).any
          (fun c => c ≠ '.') = true
      · rw [if_pos ha2, if_pos ⟨hd, ha2⟩]
      · rw [if_neg ha2, if_neg (fun hc => ha2 hc.2)]
    · rw [if_neg (by omega), if_neg (fun hc => hd hc.1)]

/-! # Claim C3 (amended): the informational lines of the Directory
Aggregator -/

theorem dir_fold_log (ign : List String) :
    ∀ (l : List Entry) (st st2 : List String × Dict DirEntry),
      foldOpt (dir_step ign) st l = some st2 →
      st2.1 = st.1 ++ (l.filter (fun e => e.path.isNone)).map
        (fun e => "Not in rev-list: " ++ entryStr e) := by
  intro l
  induction l with
  | nil =>
    intro st st2 h
    simp only [foldOpt] at h
    injection h with h2
    simp [← h2]
  | cons e rest ih =>
    intro st st2 h
    simp only [foldOpt] at h
    cases hstep : dir_step ign st e with
    | none => rw [hstep] at h; cases h
    | some st1 =>
      rw [hstep] at h
      have h2 := ih st1 st2 h
      cases hp : e.path with
      | none =>
        have hst1 : st1 = (st.1 ++ ["Not in rev-list: " ++ entryStr e], st.2) := by
          simp only [dir_step, hp] at hstep
          exact (Option.some.injEq .. ▸ hstep).symm
        rw [h2, hst1]
        simp [hp, List.filter_cons]
      | some p =>
        have hlog : st1.1 = st.1 := by
          simp only [dir_step, hp] at hstep
          by_cases ht : (e.type = "blob" || e.type = "tree") = true
          · rw [if_pos ht] at hstep
            by_cases hig : ign.contains p = true
            · rw [if_pos hig] at hstep
              injection hstep with h3
              rw [← h3]
            · rw [if_neg hig] at hstep
              cases hw : walk_ancestors e.size e.pack_size p.data.length p
                  (dictUpdate p (fun de => update_size de e.size e.pack_size)
                    (DirEntry.empty p e.type) st.2) with
              | none => rw [hw] at hstep; cases hstep
              | some d2 =>
                rw [hw] at hstep
                injection hstep with h3
                rw [← h3]
          · rw [if_neg ht] at hstep
            injection hstep with h3
            rw [← h3]
        rw [h2, hlog]
        simp [hp, List.filter_cons]

/-- C3 (corrected): the absent-path check of the Directory Aggregator (and
its one informational line per record) precedes the kind check, so the
emitted `stderr` lines are exactly one line per record whose path is absent,
of any kind — commits and tags included; records with present paths and
kinds outside {blob, tree} are skipped silently. -/
theorem C3_amended_info_lines (entries : Dict Entry) (ignored : List String)
    (log : List String) (nodes : List DirEntry)
    (h : make_dir_entries entries ignored = some (log, nodes)) :
    log = ((entries.map Prod.snd).filter (fun e => e.path.isNone)).map
      (fun e => "Not in rev-list: " ++ entryStr e) := by
  unfold make_dir_entries at h
  cases hf : foldOpt (dir_step ignored) ([], []) (entries.map Prod.snd) with
  | none => rw [hf] at h; cases h
  | some st =>
    rw [hf] at h
    obtain ⟨log2, d⟩ := st
    injection h with h2
    injection h2 with h3 h4
    have hl := dir_fold_log ignored (entries.map Prod.snd) ([], []) (log2, d) hf
    rw [← h3]
    simpa using hl

/-- Witness for C3 (amended): the run over a single commit record with an
absent path emits exactly its informational line. -/
theorem C3_witness :
    ["Not in rev-list: " ++ entryStr commitAbsent] =
      (([(idA, commitAbsent)].map Prod.snd).filter
        (fun e => e.path.isNone)).map
        (fun e => "Not in rev-list: " ++ entryStr e) :=
  C3_amended_info_lines [(idA, commitAbsent)] []
    ["Not in rev-list: " ++ entryStr commitAbsent] [] (by rfl)

/-! # Claim C6: support lemmas -/

theorem iterAcc_fields (sz pk : Nat) (k : Nat) (v : DirEntry) :
    (iterAcc sz pk k v).path = v.path ∧
    (iterAcc sz pk k v).type = v.type ∧
    (iterAcc sz pk k v).size = v.size ∧
    (iterAcc sz pk k v).pack_size = v.pack_size ∧
    (iterAcc sz pk k v).updates = v.updates ∧
    (iterAcc sz pk k v).acc_size = v.acc_size + k * sz ∧
    (iterAcc sz pk k v).acc_pack_size = v.acc_pack_size + k * pk ∧
    (iterAcc sz pk k v).acc_updates = v.acc_updates + k := by
  induction k generalizing v with
  | zero => simp [iterAcc]
  | succ k ih =>
    obtain ⟨h1, h2, h3, h4, h5, h6, h7, h8⟩ := ih (update_acc_size v sz pk)
    simp only [iterAcc]
    refine ⟨by rw [h1]; rfl, by rw [h2]; rfl, by rw [h3]; rfl,
      by rw [h4]; rfl, by rw [h5]; rfl, ?_, ?_, ?_⟩
    · rw [h6]
      show v.acc_size + sz + k * sz = v.acc_size + (k + 1) * sz
      ring
    · rw [h7]
      show v.acc_pack_size + pk + k * pk = v.acc_pack_size + (k + 1) * pk
      ring
    · rw [h8]
      show v.acc_updates + 1 + k = v.acc_updates + (k + 1)
      omega

theorem cntEq_cons (p q : String) (qs : List String) :
    cntEq p (q :: qs) = (if q = p then 1 else 0) + cntEq p qs := by
  by_cases h : q = p
  · simp [cntEq, h]
    omega
  · simp [cntEq, h]

theorem foldAcc_get (sz pk : Nat) :
    ∀ (qs : List String) (d : Dict DirEntry) (p : String),
      dictGet p (qs.foldl (accUpd sz pk) d) =
        match dictGet p d, cntEq p qs with
        | some v, k => some (iterAcc sz pk k v)
        | none, 0 => none
        | none, k + 1 => some (iterAcc sz pk (k + 1) (DirEntry.empty p "tree")) := by
  intro qs
  induction qs with
  | nil =>
    intro d p
    cases hd : dictGet p d <;> simp [cntEq, iterAcc, hd]
  | cons q qs ih =>
    intro d p
    simp only [List.foldl_cons]
    rw [ih]
    by_cases hq : q = p
    · subst hq
      have hu : dictGet q (accUpd sz pk d q) =
          some (update_acc_size ((dictGet q d).getD (DirEntry.empty q "tree"))
            sz pk) := by
        rw [accUpd, dictGet_dictUpdate, if_pos rfl]
      rw [hu, cntEq_cons, if_pos rfl]
      cases hd : dictGet q d with
      | some v => simp [hd, Nat.add_comm 1 (cntEq q qs), iterAcc]
      | none => simp [hd, Nat.add_comm 1 (cntEq q qs), iterAcc]
    · have hu : dictGet p (accUpd sz pk d q) = dictGet p d := by
        rw [accUpd, dictGet_dictUpdate, if_neg hq]
      rw [hu, cntEq_cons, if_neg hq, Nat.zero_add]

theorem walk_eq_chain (sz pk : Nat) :
    ∀ (fuel : Nat) (path : String) (d : Dict DirEntry),
      walk_ancestors sz pk fuel path d =
        (chain fuel path).map (fun qs => qs.foldl (accUpd sz pk) d) := by
  intro fuel
  induction fuel with
  | zero =>
    intro path d
    by_cases h : path = "" <;> simp [walk_ancestors, chain, h]
  | succ fuel ih =>
    intro path d
    by_cases h : path = ""
    · simp [walk_ancestors, chain, h]
    · simp only [walk_ancestors, chain, if_neg h]
      rw [ih]
      cases hc : chain fuel (dirname path) with
      | none => simp
      | some qs => simp

theorem nodup_foldAcc (sz pk : Nat) :
    ∀ (qs : List String) (d : Dict DirEntry),
      ((d.map Prod.fst).Nodup) →
      (((qs.foldl (accUpd sz pk) d).map Prod.fst).Nodup) := by
  intro qs
  induction qs with
  | nil => intro d h; exact h
  | cons q qs ih =>
    intro d h
    simp only [List.foldl_cons]
    exact ih _ (nodupKeys_dictUpdate _ _ _ h)

theorem direct_sums_zero (l : List Entry) (ign : List String) (p : String)
    (h : directCount l ign p = 0) :
    directSizeSum l ign p = 0 ∧ directPackSum l ign p = 0 := by
  have h2 : directFilter ign p l = [] := List.length_eq_zero.mp h
  simp [directSizeSum, directPackSum, h2]

theorem anc_sums_zero (l : List Entry) (ign : List String) (p : String)
    (h : ancCount l ign p = 0) :
    ancSizeSum l ign p = 0 ∧ ancPackSum l ign p = 0 := by
  unfold ancCount at h
  constructor <;>
  · apply List.sum_eq_zero
    intro x hx
    obtain ⟨e2, he2, rfl⟩ := List.mem_map.mp hx
    have hc : chainCount e2 p = 0 :=
      List.sum_eq_zero_iff.mp h _ (List.mem_map_of_mem _ he2)
    simp [hc]

theorem sums_append_skip (l : List Entry) (ign : List String) (e : Entry)
    (he : counted ign e = false) (p : String) :
    directCount (l ++ [e]) ign p = directCount l ign p ∧
    directSizeSum (l ++ [e]) ign p = directSizeSum l ign p ∧
    directPackSum (l ++ [e]) ign p = directPackSum l ign p ∧
    ancCount (l ++ [e]) ign p = ancCount l ign p ∧
    ancSizeSum (l ++ [e]) ign p = ancSizeSum l ign p ∧
    ancPackSum (l ++ [e]) ign p = ancPackSum l ign p := by
  simp [directCount, directSizeSum, directPackSum, directFilter,
    ancCount, ancSizeSum, ancPackSum, List.filter_append, he]

theorem sums_append_counted (l : List Entry) (ign : List String) (e : Entry)
    (he : counted ign e = true) (pe : String) (hpe : e.path = some pe)
    (p : String) :
    directCount (l ++ [e]) ign p
      = directCount l ign p + (if pe = p then 1 else 0) ∧
    directSizeSum (l ++ [e]) ign p
      = directSizeSum l ign p + (if pe = p then e.size else 0) ∧
    directPackSum (l ++ [e]) ign p
      = directPackSum l ign p + (if pe = p then e.pack_size else 0) ∧
    ancCount (l ++ [e]) ign p = ancCount l ign p + chainCount e p ∧
    ancSizeSum (l ++ [e]) ign p
      = ancSizeSum l ign p + chainCount e p * e.size ∧
    ancPackSum (l ++ [e]) ign p
      = ancPackSum l ign p + chainCount e p * e.pack_size := by
  by_cases hp : pe = p <;>
    simp [directCount, directSizeSum, directPackSum, directFilter,
      ancCount, ancSizeSum, ancPackSum, List.filter_append, he, hpe, hp]

theorem hasDesc_iff (entries : Dict Entry) (ign : List String) (p : String) :
    hasDescendantContribution entries ign p = false ↔
      ancCount (entries.map Prod.snd) ign p = 0 := by
  rw [hasDescendantContribution, ancCount, List.any_eq_false,
    List.sum_eq_zero_iff]
  constructor
  · intro h x hx
    obtain ⟨e2, he2, rfl⟩ := List.mem_map.mp hx
    have he3 := (List.mem_filter.mp he2).1
    have hc := (List.mem_filter.mp he2).2
    have h2 := h e2 he3
    simp only [Bool.and_eq_true, decide_eq_true_eq] at h2
    by_contra hne
    exact h2 ⟨hc, hne⟩
  · intro h e2 he2
    simp only [Bool.and_eq_true, decide_eq_true_eq]
    rintro ⟨hc, hne⟩
    apply hne
    apply h
    exact List.mem_map_of_mem _ (List.mem_filter.mpr ⟨he2, hc⟩)

/-! # Claim C6: the invariant is preserved by one record -/

theorem dir_step_skip_inv (ign : List String) (l : List Entry) (e : Entry)
    (d : Dict DirEntry) (hcnt : counted ign e = false)
    (hinv : DirInv l ign d) : DirInv (l ++ [e]) ign d := by
  refine ⟨hinv.1, fun p => ?_⟩
  obtain ⟨hc1, hc2, hc3, hc4, hc5, hc6⟩ := sums_append_skip l ign e hcnt p
  have hspec := hinv.2 p
  cases hg : dictGet p d with
  | none =>
    rw [hg] at hspec
    exact ⟨by rw [hc1]; exact hspec.1, by rw [hc4]; exact hspec.2⟩
  | some n =>
    rw [hg] at hspec
    obtain ⟨u1, u2, u3, u4, u5, u6, u7⟩ := hspec
    exact ⟨u1, by rw [hc1]; exact u2, by rw [hc2]; exact u3,
      by rw [hc3]; exact u4, by rw [hc1, hc4]; exact u5,
      by rw [hc2, hc5]; exact u6, by rw [hc3, hc6]; exact u7⟩

theorem dir_step_inv (ign : List String) (l : List Entry) (e : Entry)
    (st st2 : List String × Dict DirEntry)
    (hstep : dir_step ign st e = some st2)
    (hinv : DirInv l ign st.2) : DirInv (l ++ [e]) ign st2.2 := by
  cases hp : e.path with
  | none =>
    have hd : st2.2 = st.2 := by
      simp only [dir_step, hp] at hstep
      injection hstep with h2
      rw [← h2]
    rw [hd]
    exact dir_step_skip_inv ign l e st.2 (by simp [counted, hp]) hinv
  | some pe =>
    by_cases ht : (e.type = "blob" || e.type = "tree") = true
    · by_cases hig : ign.contains pe = true
      · -- ignored: record skipped
        have hmem : pe ∈ ign := by simpa using hig
        have hd : st2.2 = st.2 := by
          simp only [dir_step, hp] at hstep
          rw [if_pos ht, if_pos hig] at hstep
          injection hstep with h2
          rw [← h2]
        rw [hd]
        exact dir_step_skip_inv ign l e st.2 (by simp [counted, hp, hmem]) hinv
      · -- the record participates
        have hnmem : pe ∉ ign := by simpa using hig
        have hcnt : counted ign e = true := by simp [counted, hp, ht, hnmem]
        simp only [dir_step, hp] at hstep
        rw [if_pos ht, if_neg hig] at hstep
        rw [walk_eq_chain e.size e.pack_size] at hstep
        cases hc : chain pe.data.length pe with
        | none =>
          rw [hc] at hstep
          simp at hstep
        | some qs =>
          rw [hc] at hstep
          have h2 : (st.1, qs.foldl (accUpd e.size e.pack_size)
              (dictUpdate pe (fun de => update_size de e.size e.pack_size)
                (DirEntry.empty pe e.type) st.2)) = st2 := by
            injection hstep with h2
          have hst2 : st2.2 = qs.foldl (accUpd e.size e.pack_size)
              (dictUpdate pe (fun de => update_size de e.size e.pack_size)
                (DirEntry.empty pe e.type) st.2) := by
            rw [← h2]
          have hcc : ∀ p2, chainCount e p2 = cntEq p2 qs := by
            intro p2
            simp only [chainCount, hp, ancestorsOf]
            rw [hc]
          refine ⟨?_, fun p => ?_⟩
          · rw [hst2]
            exact nodup_foldAcc _ _ qs _ (nodupKeys_dictUpdate _ _ _ hinv.1)
          · obtain ⟨s1, s2, s3, s4, s5, s6⟩ :=
              sums_append_counted l ign e hcnt pe hp p
            have hspec := hinv.2 p
            by_cases hpp : pe = p
            · subst hpp
              rw [if_pos rfl] at s1 s2 s3
              cases hg : dictGet pe st.2 with
              | some v =>
                rw [hg] at hspec
                obtain ⟨u1, u2, u3, u4, u5, u6, u7⟩ := hspec
                have hval : dictGet pe st2.2 =
                    some (iterAcc e.size e.pack_size (cntEq pe qs)
                      (update_size v e.size e.pack_size)) := by
                  rw [hst2, foldAcc_get, dictGet_dictUpdate, if_pos rfl, hg]
                  rfl
                rw [hval]
                obtain ⟨f1, f2, f3, f4, f5, f6, f7, f8⟩ :=
                  iterAcc_fields e.size e.pack_size (cntEq pe qs)
                    (update_size v e.size e.pack_size)
                refine ⟨?_, ?_, ?_, ?_, ?_, ?_, ?_⟩
                · rw [f1]; exact u1
                · rw [f5, s1]
                  show v.updates + 1 = directCount l ign pe + 1
                  omega
                · rw [f3, s2]
                  show v.size + e.size = directSizeSum l ign pe + e.size
                  omega
                · rw [f4, s3]
                  show v.pack_size + e.pack_size
                    = directPackSum l ign pe + e.pack_size
                  omega
                · rw [f8, s1, s4, hcc]
                  show v.acc_updates + 1 + cntEq pe qs
                    = directCount l ign pe + 1
                      + (ancCount l ign pe + cntEq pe qs)
                  omega
                · rw [f6, s2, s5, hcc]
                  show v.acc_size + e.size + cntEq pe qs * e.size
                    = directSizeSum l ign pe + e.size
                      + (ancSizeSum l ign pe + cntEq pe qs * e.size)
                  omega
                · rw [f7, s3, s6, hcc]
                  show v.acc_pack_size + e.pack_size + cntEq pe qs * e.pack_size
                    = directPackSum l ign pe + e.pack_size
                      + (ancPackSum l ign pe + cntEq pe qs * e.pack_size)
                  omega
              | none =>
                rw [hg] at hspec
                obtain ⟨z1, z2⟩ := hspec
                obtain ⟨z3, z4⟩ := direct_sums_zero l ign pe z1
                obtain ⟨z5, z6⟩ := anc_sums_zero l ign pe z2
                have hval : dictGet pe st2.2 =
                    some (iterAcc e.size e.pack_size (cntEq pe qs)
                      (update_size (DirEntry.empty pe e.type)
                        e.size e.pack_size)) := by
                  rw [hst2, foldAcc_get, dictGet_dictUpdate, if_pos rfl, hg]
                  rfl
                rw [hval]
                obtain ⟨f1, f2, f3, f4, f5, f6, f7, f8⟩ :=
                  iterAcc_fields e.size e.pack_size (cntEq pe qs)
                    (update_size (DirEntry.empty pe e.type) e.size e.pack_size)
                refine ⟨by rw [f1]; rfl, ?_, ?_, ?_, ?_, ?_, ?_⟩
                · rw [f5, s1]
                  show 0 + 1 = directCount l ign pe + 1
                  omega
                · rw [f3, s2]
                  show 0 + e.size = directSizeSum l ign pe + e.size
                  omega
                · rw [f4, s3]
                  show 0 + e.pack_size = directPackSum l ign pe + e.pack_size
                  omega
                · rw [f8, s1, s4, hcc]
                  show 0 + 1 + cntEq pe qs
                    = directCount l ign pe + 1
                      + (ancCount l ign pe + cntEq pe qs)
                  omega
                · rw [f6, s2, s5, hcc]
                  show 0 + e.size + cntEq pe qs * e.size
                    = directSizeSum l ign pe + e.size
                      + (ancSizeSum l ign pe + cntEq pe qs * e.size)
                  omega
                · rw [f7, s3, s6, hcc]
                  show 0 + e.pack_size + cntEq pe qs * e.pack_size
                    = directPackSum l ign pe + e.pack_size
                      + (ancPackSum l ign pe + cntEq pe qs * e.pack_size)
                  omega
            · rw [if_neg hpp] at s1 s2 s3
              cases hg : dictGet p st.2 with
              | some v =>
                rw [hg] at hspec
                obtain ⟨u1, u2, u3, u4, u5, u6, u7⟩ := hspec
                have hval : dictGet p st2.2 =
                    some (iterAcc e.size e.pack_size (cntEq p qs) v) := by
                  rw [hst2, foldAcc_get, dictGet_dictUpdate, if_neg hpp, hg]
                rw [hval]
                obtain ⟨f1, f2, f3, f4, f5, f6, f7, f8⟩ :=
                  iterAcc_fields e.size e.pack_size (cntEq p qs) v
                refine ⟨by rw [f1]; exact u1, by rw [f5, s1]; omega,
                  by rw [f3, s2]; omega, by rw [f4, s3]; omega, ?_, ?_, ?_⟩
                · rw [f8, s1, s4, hcc]
                  omega
                · rw [f6, s2, s5, hcc]
                  omega
                · rw [f7, s3, s6, hcc]
                  omega
              | none =>
                rw [hg] at hspec
                obtain ⟨z1, z2⟩ := hspec
                obtain ⟨z3, z4⟩ := direct_sums_zero l ign p z1
                obtain ⟨z5, z6⟩ := anc_sums_zero l ign p z2
                have hget1 : dictGet p (dictUpdate pe
                    (fun de => update_size de e.size e.pack_size)
                    (DirEntry.empty pe e.type) st.2) = none := by
                  rw [dictGet_dictUpdate, if_neg hpp, hg]
                cases hk : cntEq p qs with
                | zero =>
                  have hval : dictGet p st2.2 = none := by
                    rw [hst2, foldAcc_get, hget1, hk]
                  rw [hval]
                  exact ⟨by rw [s1]; omega, by rw [s4, hcc, hk]; omega⟩
                | succ k =>
                  have hval : dictGet p st2.2 =
                      some (iterAcc e.size e.pack_size (k + 1)
                        (DirEntry.empty p "tree")) := by
                    rw [hst2, foldAcc_get, hget1, hk]
                  rw [hval]
                  obtain ⟨f1, f2, f3, f4, f5, f6, f7, f8⟩ :=
                    iterAcc_fields e.size e.pack_size (k + 1)
                      (DirEntry.empty p "tree")
                  refine ⟨by rw [f1]; rfl, by rw [f5, s1]; simp [DirEntry.empty]; omega,
                    by rw [f3, s2]; simp [DirEntry.empty]; omega,
                    by rw [f4, s3]; simp [DirEntry.empty]; omega, ?_, ?_, ?_⟩
                  · rw [f8, s1, s4, hcc, hk]
                    simp [DirEntry.empty]
                    omega
                  · rw [f6, s2, s5, hcc, hk]
                    simp [DirEntry.empty]
                    omega
                  · rw [f7, s3, s6, hcc, hk]
                    simp [DirEntry.empty]
                    omega
    · -- kind outside {blob, tree}: record skipped
      have ht2 : (e.type = "blob" || e.type = "tree") = false := by
        simpa using ht
      have hd : st2.2 = st.2 := by
        simp only [dir_step, hp] at hstep
        rw [if_neg ht] at hstep
        injection hstep with h2
        rw [← h2]
      rw [hd]
      exact dir_step_skip_inv ign l e st.2 (by simp [counted, hp, ht2]) hinv

/-! # Claim C6 (amended): monotone accumulation -/

theorem dir_fold_inv (ign : List String) :
    ∀ (rest processed : List Entry) (st st2 : List String × Dict DirEntry),
      foldOpt (dir_step ign) st rest = some st2 →
      DirInv processed ign st.2 →
      DirInv (processed ++ rest) ign st2.2 := by
  intro rest
  induction rest with
  | nil =>
    intro processed st st2 h hinv
    simp only [foldOpt] at h
    injection h with h2
    rw [← h2]
    simpa using hinv
  | cons e rest ih =>
    intro processed st st2 h hinv
    simp only [foldOpt] at h
    cases hstep : dir_step ign st e with
    | none => rw [hstep] at h; cases h
    | some st1 =>
      rw [hstep] at h
      have hinv2 := dir_step_inv ign processed e st st1 hstep hinv
      have h3 := ih (processed ++ [e]) st1 st2 h hinv2
      rw [List.append_assoc] at h3
      simpa using h3

/-- C6 (corrected): every node of the Directory Aggregator's output
satisfies `accumulated* ≥ direct*` in all three measures; the update counts
are equal exactly when the node has no descendant contribution, and a node
without descendant contributions also has equal sizes (the converse of the
size equalities fails for zero-size descendants, so the per-measure `iff` of
the original claim holds only for the update counts). -/
theorem C6_amended_monotone (entries : Dict Entry) (ign : List String)
    (log : List String) (nodes : List DirEntry)
    (h : make_dir_entries entries ign = some (log, nodes))
    (n : DirEntry) (hn : n ∈ nodes) :
    n.size ≤ n.acc_size ∧ n.pack_size ≤ n.acc_pack_size ∧
    n.updates ≤ n.acc_updates ∧
    (n.acc_updates = n.updates ↔
      hasDescendantContribution entries ign n.path = false) ∧
    (hasDescendantContribution entries ign n.path = false →
      n.acc_size = n.size ∧ n.acc_pack_size = n.pack_size) := by
  unfold make_dir_entries at h
  cases hf : foldOpt (dir_step ign) ([], []) (entries.map Prod.snd) with
  | none => rw [hf] at h; cases h
  | some st =>
    rw [hf] at h
    obtain ⟨log2, d⟩ := st
    injection h with h2
    injection h2 with h3 h4
    have h0 : DirInv ([] : List Entry) ign ([] : Dict DirEntry) := by
      refine ⟨by simp, fun p => ?_⟩
      exact ⟨rfl, rfl⟩
    have hinv := dir_fold_inv ign (entries.map Prod.snd) [] ([], [])
      (log2, d) hf h0
    rw [List.nil_append] at hinv
    rw [← h4] at hn
    have hn2 : n ∈ d.map Prod.snd := (mem_sortBy _ _ _).mp hn
    obtain ⟨⟨k, v⟩, hpr, hpr2⟩ := List.mem_map.mp hn2
    have hv : v = n := hpr2
    subst hv
    have hget : dictGet k d = some v := dictGet_of_mem hinv.1 hpr
    have hspec := hinv.2 k
    rw [hget] at hspec
    obtain ⟨hpath, hupd, hsize, hpack, haccu, haccs, haccp⟩ := hspec
    rw [← hpath] at hupd hsize hpack haccu haccs haccp
    rw [hasDesc_iff]
    refine ⟨by omega, by omega, by omega, by omega, ?_⟩
    intro h5
    obtain ⟨z5, z6⟩ := anc_sums_zero (entries.map Prod.snd) ign v.path h5
    omega

/-- Witness for C6 (amended) at Scenario A's `src/main.txt` node, a node
without descendant contributions. -/
theorem C6_witness :
    scenarioA_leaf.size ≤ scenarioA_leaf.acc_size ∧
    scenarioA_leaf.pack_size ≤ scenarioA_leaf.acc_pack_size ∧
    scenarioA_leaf.updates ≤ scenarioA_leaf.acc_updates ∧
    (scenarioA_leaf.acc_updates = scenarioA_leaf.updates ↔
      hasDescendantContribution scenarioA [] scenarioA_leaf.path = false) ∧
    (hasDescendantContribution scenarioA [] scenarioA_leaf.path = false →
      scenarioA_leaf.acc_size = scenarioA_leaf.size ∧
      scenarioA_leaf.acc_pack_size = scenarioA_leaf.pack_size) :=
  C6_amended_monotone scenarioA [] [] scenarioA_nodes (by rfl)
    scenarioA_leaf (by decide)

end Gitdu
